import Mathlib

/-!
Shallow embedding of the Access Policy Engine of the focus-chrome
repository, together with theorems settling the frozen claims.

The embedding follows the JavaScript source:
  * `src/background/rule-engine.js`  — schedule evaluation, decision engine,
    next-boundary computation, rule compilation;
  * `src/background/time-tracker.js` — most-restrictive aggregation and the
    per-second tracking loop;
  * `src/shared/group-manager.js`    — pattern normalization and time-block
    creation.
Ambient browser state (current time, stored pauses, stored tracking
entries) is passed explicitly through an `Env` record; JavaScript strings
are modelled as lists of code points where character-level operations
matter, and as Lean `String`s where they are opaque identifiers.
-/

namespace Focus

/-- Day-of-week names as used by `DAY_NAMES` in rule-engine.js. -/
inductive Day where
  | sun | mon | tue | wed | thu | fri | sat
deriving DecidableEq, Repr

/-- An `HH:MM` time-of-day string, already split at the colon the way
`timeStrToMinutes` splits it. -/
structure HM where
  h : Nat
  m : Nat
deriving DecidableEq, Repr

/-- `timeStrToMinutes` from rule-engine.js: `h * 60 + m`. -/
def timeStrToMinutes (t : HM) : Nat := t.h * 60 + t.m

/-- A site entry `{id, pattern}` of a group (group-manager.js / rule-engine.js).
The pattern text is opaque for the claims modelled here. -/
structure Site where
  id : String
  pattern : String
deriving DecidableEq, Repr

/-- A time block `{id, days, startTime, endTime, allDay, allowedMinutes}`. -/
structure TimeBlock where
  id : String
  days : List Day
  startTime : HM
  endTime : HM
  allDay : Bool
  allowedMinutes : Nat
deriving DecidableEq, Repr

/-- A group `{id, name, sites, allowedTimeBlocks}`. -/
structure Group where
  id : String
  name : String
  sites : List Site
  allowedTimeBlocks : List TimeBlock
deriving DecidableEq, Repr

/-- The ambient state read by the decision engine: the current instant
(epoch milliseconds, current weekday and minute-of-day), the stored pauses
(`getPause`: groupId → pausedUntil timestamp, if a pause row exists) and
today's stored tracking entries (`getTrackingEntry`: groupId → blockId →
usedSeconds, defaulting to 0 when absent). -/
structure Env where
  nowMs : Nat
  today : Day
  nowMinutes : Nat
  pauses : String → Option Nat
  used : String → String → Nat

/-- `isInsideTimeBlock` from rule-engine.js, with the ambient current day
and minute-of-day passed explicitly:
`block.days.includes(currentDay) && start <= now && now <= end`. -/
def isInsideTimeBlock (block : TimeBlock) (currentDay : Day) (nowMinutes : Nat) : Bool :=
  block.days.contains currentDay &&
    decide (timeStrToMinutes block.startTime ≤ nowMinutes) &&
    decide (nowMinutes ≤ timeStrToMinutes block.endTime)

/-- `getActiveBlockForGroup` from rule-engine.js: the first block (insertion
order) whose day set contains today and whose `[start, end]` window
(end inclusive) contains the current minute. The source inlines the same
test that `isInsideTimeBlock` performs. -/
def getActiveBlockForGroup (group : Group) (today : Day) (nowMinutes : Nat) : Option TimeBlock :=
  group.allowedTimeBlocks.find? (fun b => isInsideTimeBlock b today nowMinutes)

/-- The reason carried by a blocking decision of `shouldGroupBlockNow`. -/
inductive BlockReason where
  | alwaysBlocked
  | outsideSchedule
  | budgetExhausted (allowedMinutes : Nat)
deriving DecidableEq, Repr

/-- The result object of `shouldGroupBlockNow`, as a closed union:
`{block:false, reason:'paused', pausedUntil}`,
`{block:true, reason}` (with `allowedMinutes` for budget exhaustion), or
`{block:false, reason:'allowed', activeBlock, remainingSeconds}`. -/
inductive Decision where
  | pausedD (pausedUntil : Nat)
  | blockedD (reason : BlockReason)
  | allowedD (activeBlock : TimeBlock) (remainingSeconds : Int)
deriving DecidableEq, Repr

/-- The `block` field of the decision object. -/
def Decision.block : Decision → Bool
  | .blockedD _ => true
  | _ => false

/-- Whether a decision is the `allowed` case. -/
def Decision.isAllowed : Decision → Bool
  | .allowedD _ _ => true
  | _ => false

/-- The pause-independent tail of `shouldGroupBlockNow` (everything after
the pause check): always-blocked on zero time blocks, outside-schedule when
no block is active, then the budget comparison
`usedSeconds / 60 >= allowedMinutes` (exact rational division, mirroring
the JavaScript numeric division) and
`remainingSeconds = allowedMinutes*60 - usedSeconds`. -/
def decideAfterPause (env : Env) (group : Group) : Decision :=
  if group.allowedTimeBlocks.length = 0 then
    .blockedD .alwaysBlocked
  else
    match getActiveBlockForGroup group env.today env.nowMinutes with
    | none => .blockedD .outsideSchedule
    | some activeBlock =>
      let usedSeconds := env.used group.id activeBlock.id
      if (activeBlock.allowedMinutes : ℚ) ≤ (usedSeconds : ℚ) / 60 then
        .blockedD (.budgetExhausted activeBlock.allowedMinutes)
      else
        .allowedD activeBlock ((activeBlock.allowedMinutes * 60 : Int) - usedSeconds)

/-- `shouldGroupBlockNow` from rule-engine.js: the pause row is consulted
first, and an unexpired pause (`pausedUntil > Date.now()`) overrides
everything else. -/
def shouldGroupBlockNow (env : Env) (group : Group) : Decision :=
  match env.pauses group.id with
  | some pausedUntil =>
    if env.nowMs < pausedUntil then .pausedD pausedUntil
    else decideAfterPause env group
  | none => decideAfterPause env group

end Focus

namespace Focus

/-- Helper: when no unexpired pause exists for the group, `shouldGroupBlockNow`
reduces to its pause-independent tail. -/
theorem shouldGroupBlockNow_of_noPause (env : Env) (g : Group)
    (hp : ∀ pu, env.pauses g.id = some pu → pu ≤ env.nowMs) :
    shouldGroupBlockNow env g = decideAfterPause env g := by
  unfold shouldGroupBlockNow
  cases hpe : env.pauses g.id with
  | none => rfl
  | some pu => simp [Nat.not_lt.mpr (hp pu hpe)]

/-- C4: `isInsideTimeBlock` is true exactly when the current weekday is in the
block's day set and the minute-of-day lies in `[start, end]` with the end
boundary inclusive; in particular it is true at the `end` minute (whenever the
day matches and the window is nonempty) and false at `end + 1`. -/
theorem isInsideTimeBlock_spec (block : TimeBlock) (today : Day) (n : Nat) :
    (isInsideTimeBlock block today n = true ↔
      today ∈ block.days ∧
        timeStrToMinutes block.startTime ≤ n ∧ n ≤ timeStrToMinutes block.endTime) ∧
    (today ∈ block.days →
      timeStrToMinutes block.startTime ≤ timeStrToMinutes block.endTime →
      isInsideTimeBlock block today (timeStrToMinutes block.endTime) = true) ∧
    isInsideTimeBlock block today (timeStrToMinutes block.endTime + 1) = false := by
  refine ⟨?_, ?_, ?_⟩
  · simp [isInsideTimeBlock, and_assoc]
  · intro hd hse
    simp [isInsideTimeBlock, hd, hse]
  · simp [isInsideTimeBlock]

/-- Witness for `isInsideTimeBlock_spec` at a concrete block
(Mon 14:00–17:00): active at the final minute 17:00, inactive at 17:01. -/
theorem isInsideTimeBlock_spec_witness :
    (Day.mon ∈ (TimeBlock.mk "b1" [Day.mon] ⟨14, 0⟩ ⟨17, 0⟩ false 15).days) ∧
    timeStrToMinutes (⟨14, 0⟩ : HM) ≤ timeStrToMinutes (⟨17, 0⟩ : HM) ∧
    isInsideTimeBlock (TimeBlock.mk "b1" [Day.mon] ⟨14, 0⟩ ⟨17, 0⟩ false 15) Day.mon
      (timeStrToMinutes (⟨17, 0⟩ : HM)) = true ∧
    isInsideTimeBlock (TimeBlock.mk "b1" [Day.mon] ⟨14, 0⟩ ⟨17, 0⟩ false 15) Day.mon
      (timeStrToMinutes (⟨17, 0⟩ : HM) + 1) = false :=
  ⟨by decide, by decide,
    (isInsideTimeBlock_spec (TimeBlock.mk "b1" [Day.mon] ⟨14, 0⟩ ⟨17, 0⟩ false 15)
      Day.mon 0).2.1 (by decide) (by decide),
    (isInsideTimeBlock_spec (TimeBlock.mk "b1" [Day.mon] ⟨14, 0⟩ ⟨17, 0⟩ false 15)
      Day.mon 0).2.2⟩

/-- A group with no time blocks. -/
def gEmpty : Group := ⟨"g-empty", "Empty", [], []⟩

/-- An environment in which `gEmpty` has an unexpired pause until 5000 ms. -/
def envPausedEmpty : Env :=
  { nowMs := 1000, today := .mon, nowMinutes := 600,
    pauses := fun i => if i = "g-empty" then some 5000 else none,
    used := fun _ _ => 0 }

/-- C5 counterexample: a group with an empty `allowedTimeBlocks` list does NOT
always decide `Blocked{AlwaysBlocked}` — with an unexpired pause present the
pause check fires first and the decision is `Paused`. -/
theorem emptyGroup_paused_counterexample :
    gEmpty.allowedTimeBlocks = [] ∧
    shouldGroupBlockNow envPausedEmpty gEmpty = .pausedD 5000 ∧
    shouldGroupBlockNow envPausedEmpty gEmpty ≠ .blockedD .alwaysBlocked := by
  refine ⟨rfl, ?_, ?_⟩ <;> simp [shouldGroupBlockNow, envPausedEmpty, gEmpty]

/-- C5 (amended): a group with an empty `allowedTimeBlocks` list and no
unexpired pause decides `Blocked{AlwaysBlocked}` at every instant. -/
theorem emptyGroup_alwaysBlocked (env : Env) (g : Group)
    (hempty : g.allowedTimeBlocks = [])
    (hp : ∀ pu, env.pauses g.id = some pu → pu ≤ env.nowMs) :
    shouldGroupBlockNow env g = .blockedD .alwaysBlocked := by
  rw [shouldGroupBlockNow_of_noPause env g hp]
  unfold decideAfterPause
  simp [hempty]

/-- A pause-free environment at Monday 10:00. -/
def envNoPause : Env :=
  { nowMs := 1000, today := .mon, nowMinutes := 600,
    pauses := fun _ => none, used := fun _ _ => 0 }

/-- Witness for `emptyGroup_alwaysBlocked` on a concrete group and
pause-free environment. -/
theorem emptyGroup_alwaysBlocked_witness :
    gEmpty.allowedTimeBlocks = [] ∧
    shouldGroupBlockNow envNoPause gEmpty = .blockedD .alwaysBlocked :=
  ⟨rfl, emptyGroup_alwaysBlocked envNoPause gEmpty rfl
    (fun pu h => by simp [envNoPause] at h)⟩

end Focus

namespace Focus

/-- C2: with no unexpired pause and an active time block, the decision is
`Blocked{BudgetExhausted, allowedMinutes}` exactly when
`usedSeconds / 60 ≥ allowedMinutes`, and otherwise
`Allowed{activeBlock, remainingSeconds = allowedMinutes*60 − usedSeconds}`;
a zero-minute budget is immediately exhausted. -/
theorem budget_decision_spec (env : Env) (g : Group) (b : TimeBlock)
    (hp : ∀ pu, env.pauses g.id = some pu → pu ≤ env.nowMs)
    (hb : getActiveBlockForGroup g env.today env.nowMinutes = some b) :
    (((env.used g.id b.id : ℚ) / 60 ≥ (b.allowedMinutes : ℚ)) →
        shouldGroupBlockNow env g = .blockedD (.budgetExhausted b.allowedMinutes)) ∧
    (((env.used g.id b.id : ℚ) / 60 < (b.allowedMinutes : ℚ)) →
        shouldGroupBlockNow env g =
          .allowedD b ((b.allowedMinutes * 60 : Int) - env.used g.id b.id)) ∧
    (b.allowedMinutes = 0 →
        shouldGroupBlockNow env g = .blockedD (.budgetExhausted 0)) := by
  have hne : ¬ g.allowedTimeBlocks.length = 0 := by
    intro h0
    rw [List.length_eq_zero] at h0
    unfold getActiveBlockForGroup at hb
    rw [h0] at hb
    simp at hb
  rw [shouldGroupBlockNow_of_noPause env g hp]
  unfold decideAfterPause
  rw [if_neg hne, hb]
  dsimp only
  refine ⟨?_, ?_, ?_⟩
  · intro hge
    simp only [ge_iff_le] at hge
    rw [if_pos hge]
  · intro hlt
    rw [if_neg (not_le.mpr hlt)]
  · intro h0
    have : ((b.allowedMinutes : ℚ)) ≤ (env.used g.id b.id : ℚ) / 60 := by
      rw [h0]
      positivity
    rw [if_pos this, h0]

/-- The Social scenario block of the spec: Monday 14:00–17:00, 15 minutes. -/
def wBlock : TimeBlock := ⟨"b1", [Day.mon], ⟨14, 0⟩, ⟨17, 0⟩, false, 15⟩

/-- A group holding `wBlock` and one site. -/
def wGroup : Group := ⟨"g1", "Social", [⟨"s1", "reddit.com"⟩], [wBlock]⟩

/-- Monday 14:00 with no pauses and no prior usage. -/
def envW : Env :=
  { nowMs := 0, today := .mon, nowMinutes := 14 * 60,
    pauses := fun _ => none, used := fun _ _ => 0 }

/-- Witness for `budget_decision_spec`: at Monday 14:00 with zero prior usage,
`wGroup` is allowed with 900 remaining seconds. -/
theorem budget_decision_spec_witness :
    ((envW.used wGroup.id wBlock.id : ℚ) / 60 < (wBlock.allowedMinutes : ℚ)) ∧
    shouldGroupBlockNow envW wGroup = .allowedD wBlock 900 := by
  have hlt : ((envW.used wGroup.id wBlock.id : ℚ) / 60 < (wBlock.allowedMinutes : ℚ)) := by
    norm_num [envW, wGroup, wBlock]
  have h := (budget_decision_spec envW wGroup wBlock
    (fun pu hpe => by simp [envW] at hpe) (by decide)).2.1 hlt
  refine ⟨hlt, ?_⟩
  rw [h]
  norm_num [envW, wGroup, wBlock]

/-- C3: an unexpired pause (`pausedUntil > now`) makes the decision
`Paused{pausedUntil}` regardless of schedule, budget or absence of time
blocks; once `pausedUntil` has elapsed the decision coincides with the
decision in an environment whose pause row for the group is absent. -/
theorem pause_decision_spec (env : Env) (g : Group) (pu : Nat)
    (hpe : env.pauses g.id = some pu) :
    (env.nowMs < pu → shouldGroupBlockNow env g = .pausedD pu) ∧
    (pu ≤ env.nowMs →
      shouldGroupBlockNow env g =
        shouldGroupBlockNow
          { env with pauses := fun i => if i = g.id then none else env.pauses i } g) := by
  constructor
  · intro hlt
    unfold shouldGroupBlockNow
    rw [hpe]
    simp [hlt]
  · intro hle
    have h1 : shouldGroupBlockNow env g = decideAfterPause env g :=
      shouldGroupBlockNow_of_noPause env g
        (fun pu' hpe' => by rw [hpe] at hpe'; injection hpe' with h; omega)
    have h2 : shouldGroupBlockNow
        { env with pauses := fun i => if i = g.id then none else env.pauses i } g =
        decideAfterPause
          { env with pauses := fun i => if i = g.id then none else env.pauses i } g := by
      unfold shouldGroupBlockNow
      simp
    rw [h1, h2]
    rfl

/-- Monday 14:00 with every group paused until 5000 ms, "now" being 1000 ms. -/
def envPW : Env :=
  { nowMs := 1000, today := .mon, nowMinutes := 14 * 60,
    pauses := fun _ => some 5000, used := fun _ _ => 0 }

/-- Witness for `pause_decision_spec`: the paused `wGroup` decides
`Paused{5000}` even though its time block is active with budget left. -/
theorem pause_decision_spec_witness :
    envPW.nowMs < 5000 ∧ shouldGroupBlockNow envPW wGroup = .pausedD 5000 :=
  ⟨by decide, (pause_decision_spec envPW wGroup 5000 rfl).1 (by decide)⟩

end Focus

namespace Focus

/-- The aggregate outcome of the most-restrictive scan in
`evaluateCurrentTab` (time-tracker.js, lines 103–159): a blocking group
redirects, a paused group shows the paused badge, otherwise the allowed
group with the least remaining seconds is tracked; with no candidate the
default state is kept. -/
inductive AggOutcome where
  | blockedOutcome (g : Group) (reason : BlockReason)
  | pausedOutcome (g : Group) (pausedUntil : Nat)
  | trackingOutcome (g : Group) (activeBlock : TimeBlock) (remainingSeconds : Int)
  | noGoverning
deriving DecidableEq, Repr

/-- The scan loop of `evaluateCurrentTab` over the matching groups, carrying
the best allowed candidate so far (`mostRestrictive` / `bestDecision` in the
source): a blocked decision returns immediately, a paused decision returns
immediately, an allowed decision replaces the candidate when its
`remainingSeconds` is strictly smaller. -/
def evalLoop (env : Env) : List Group → Option (Group × TimeBlock × Int) → AggOutcome
  | [], none => .noGoverning
  | [], some (g, b, r) => .trackingOutcome g b r
  | g :: rest, best =>
    match shouldGroupBlockNow env g with
    | .blockedD reason => .blockedOutcome g reason
    | .pausedD pu => .pausedOutcome g pu
    | .allowedD b r =>
      match best with
      | none => evalLoop env rest (some (g, b, r))
      | some (g0, b0, r0) =>
        if r < r0 then evalLoop env rest (some (g, b, r))
        else evalLoop env rest (some (g0, b0, r0))

/-- The most-restrictive aggregation of `evaluateCurrentTab` applied to the
list of groups matching the current URL. -/
def evaluateMatchingGroups (env : Env) (gs : List Group) : AggOutcome :=
  evalLoop env gs none

/-- A group paused in `cexEnv` (its block would otherwise be active). -/
def gP : Group := ⟨"g-p", "PausedGroup", [⟨"sp", "p.com"⟩], [wBlock]⟩

/-- Environment in which only `gP` has an unexpired pause. -/
def cexEnv : Env :=
  { nowMs := 1000, today := .mon, nowMinutes := 840,
    pauses := fun i => if i = "g-p" then some 5000 else none,
    used := fun _ _ => 0 }

/-- C1 counterexample: a blocking group in the list does not govern when a
paused group comes first in iteration order — the pause short-circuits the
scan, so the aggregate result is `Paused`, not the blocking group. -/
theorem agg_blocked_counterexample :
    (shouldGroupBlockNow cexEnv gEmpty).block = true ∧
    evaluateMatchingGroups cexEnv [gP, gEmpty] = .pausedOutcome gP 5000 ∧
    evaluateMatchingGroups cexEnv [gP, gEmpty] ≠ .blockedOutcome gEmpty .alwaysBlocked := by
  refine ⟨?_, ?_, ?_⟩ <;> decide

end Focus

namespace Focus

/-- A decision whose `isAllowed` flag is set is an `allowedD`. -/
theorem Decision.isAllowed_iff (d : Decision) :
    d.isAllowed = true ↔ ∃ b r, d = .allowedD b r := by
  cases d <;> simp [Decision.isAllowed]

/-- Helper: the scan returns the first blocking group when every group
before it decides allowed, whatever the accumulated best candidate is. -/
theorem evalLoop_blocked (env : Env) (g : Group) (reason : BlockReason) :
    ∀ (pre : List Group) (post : List Group) (best : Option (Group × TimeBlock × Int)),
      (∀ g' ∈ pre, (shouldGroupBlockNow env g').isAllowed = true) →
      shouldGroupBlockNow env g = .blockedD reason →
      evalLoop env (pre ++ g :: post) best = .blockedOutcome g reason := by
  intro pre
  induction pre with
  | nil =>
    intro post best _ hdec
    simp [evalLoop, hdec]
  | cons p tl ih =>
    intro post best hpre hdec
    have hp := hpre p (by simp)
    rw [Decision.isAllowed_iff] at hp
    obtain ⟨bp, rp, hdp⟩ := hp
    have htl : ∀ g' ∈ tl, (shouldGroupBlockNow env g').isAllowed = true :=
      fun g' h' => hpre g' (by simp [h'])
    cases best with
    | none =>
      simp only [List.cons_append, evalLoop, hdp]
      exact ih post _ htl hdec
    | some b0 =>
      obtain ⟨g0, b0', r0⟩ := b0
      simp only [List.cons_append, evalLoop, hdp]
      by_cases hr : rp < r0
      · rw [if_pos hr]
        exact ih post _ htl hdec
      · rw [if_neg hr]
        exact ih post _ htl hdec

/-- Helper: over an all-allowed list the scan, seeded with a candidate,
returns a tracking outcome whose remaining seconds is a lower bound of the
seed and of every allowed decision in the list. -/
theorem evalLoop_allowed_min (env : Env) :
    ∀ (gs : List Group) (g0 : Group) (b0 : TimeBlock) (r0 : Int),
      (∀ g ∈ gs, (shouldGroupBlockNow env g).isAllowed = true) →
      ∃ g b r, evalLoop env gs (some (g0, b0, r0)) = .trackingOutcome g b r ∧
        ((g = g0 ∧ b = b0 ∧ r = r0) ∨ (g ∈ gs ∧ shouldGroupBlockNow env g = .allowedD b r)) ∧
        r ≤ r0 ∧
        (∀ g' ∈ gs, ∀ b' r', shouldGroupBlockNow env g' = .allowedD b' r' → r ≤ r') := by
  intro gs
  induction gs with
  | nil =>
    intro g0 b0 r0 _
    exact ⟨g0, b0, r0, by simp [evalLoop], Or.inl ⟨rfl, rfl, rfl⟩, le_refl _, by simp⟩
  | cons a tl ih =>
    intro g0 b0 r0 hall
    have ha := hall a (by simp)
    rw [Decision.isAllowed_iff] at ha
    obtain ⟨ba, ra, hda⟩ := ha
    have htl : ∀ g ∈ tl, (shouldGroupBlockNow env g).isAllowed = true :=
      fun g' h' => hall g' (by simp [h'])
    by_cases hr : ra < r0
    · obtain ⟨g, b, r, hres, horig, hle, hmin⟩ := ih a ba ra htl
      refine ⟨g, b, r, ?_, ?_, ?_, ?_⟩
      · simp only [evalLoop, hda]
        rw [if_pos hr]
        exact hres
      · rcases horig with ⟨hg, hb, hrr⟩ | ⟨hmem, hdec⟩
        · exact Or.inr ⟨by simp [hg], by rw [hg, hb, hrr]; exact hda⟩
        · exact Or.inr ⟨by simp [hmem], hdec⟩
      · omega
      · intro g' hg' b' r' hdec'
        rcases List.mem_cons.mp hg' with h1 | h1
        · subst h1
          rw [hda] at hdec'
          injection hdec' with hb' hr'
          omega
        · exact hmin g' h1 b' r' hdec'
    · obtain ⟨g, b, r, hres, horig, hle, hmin⟩ := ih g0 b0 r0 htl
      refine ⟨g, b, r, ?_, ?_, hle, ?_⟩
      · simp only [evalLoop, hda]
        rw [if_neg hr]
        exact hres
      · rcases horig with h1 | ⟨hmem, hdec⟩
        · exact Or.inl h1
        · exact Or.inr ⟨by simp [hmem], hdec⟩
      · intro g' hg' b' r' hdec'
        rcases List.mem_cons.mp hg' with h1 | h1
        · subst h1
          rw [hda] at hdec'
          injection hdec' with hb' hr'
          omega
        · exact hmin g' h1 b' r' hdec'

/-- C1 (amended): in the most-restrictive scan, a blocking group governs
immediately provided every group before it in iteration order decides
allowed (a paused group encountered earlier short-circuits instead, see the
counterexample); and when every consulted group decides allowed, the
governing group is one whose `remainingSeconds` is least among all allowed
decisions. -/
theorem agg_most_restrictive (env : Env) :
    (∀ (pre : List Group) (g : Group) (post : List Group) (reason : BlockReason),
      (∀ g' ∈ pre, (shouldGroupBlockNow env g').isAllowed = true) →
      shouldGroupBlockNow env g = .blockedD reason →
      evaluateMatchingGroups env (pre ++ g :: post) = .blockedOutcome g reason) ∧
    (∀ gs : List Group, gs ≠ [] →
      (∀ g ∈ gs, (shouldGroupBlockNow env g).isAllowed = true) →
      ∃ g b r, evaluateMatchingGroups env gs = .trackingOutcome g b r ∧
        g ∈ gs ∧ shouldGroupBlockNow env g = .allowedD b r ∧
        ∀ g' ∈ gs, ∀ b' r', shouldGroupBlockNow env g' = .allowedD b' r' → r ≤ r') := by
  constructor
  · intro pre g post reason hpre hdec
    exact evalLoop_blocked env g reason pre post none hpre hdec
  · intro gs hne hall
    cases gs with
    | nil => exact absurd rfl hne
    | cons a tl =>
      have ha := hall a (by simp)
      rw [Decision.isAllowed_iff] at ha
      obtain ⟨ba, ra, hda⟩ := ha
      have htl : ∀ g ∈ tl, (shouldGroupBlockNow env g).isAllowed = true :=
        fun g' h' => hall g' (by simp [h'])
      obtain ⟨g, b, r, hres, horig, hle, hmin⟩ := evalLoop_allowed_min env tl a ba ra htl
      refine ⟨g, b, r, ?_, ?_, ?_, ?_⟩
      · unfold evaluateMatchingGroups
        simp only [evalLoop, hda]
        exact hres
      · rcases horig with ⟨hg, _, _⟩ | ⟨hmem, _⟩
        · simp [hg]
        · simp [hmem]
      · rcases horig with ⟨hg, hb, hrr⟩ | ⟨_, hdec⟩
        · rw [hg, hb, hrr]; exact hda
        · exact hdec
      · intro g' hg' b' r' hdec'
        rcases List.mem_cons.mp hg' with h1 | h1
        · subst h1
          rw [hda] at hdec'
          injection hdec' with hb' hr'
          omega
        · exact hmin g' h1 b' r' hdec'

end Focus

namespace Focus

/-- A one-minute-budget block Monday 14:00–17:00. -/
def wBlockA : TimeBlock := ⟨"ba", [Day.mon], ⟨14, 0⟩, ⟨17, 0⟩, false, 1⟩

/-- A ten-minute-budget block Monday 14:00–17:00. -/
def wBlockB : TimeBlock := ⟨"bb", [Day.mon], ⟨14, 0⟩, ⟨17, 0⟩, false, 10⟩

/-- Group A of the two-group scenario. -/
def gA : Group := ⟨"ga", "A", [⟨"sa", "a.com"⟩], [wBlockA]⟩

/-- Group B of the two-group scenario. -/
def gB2 : Group := ⟨"gb", "B", [⟨"sb", "b.com"⟩], [wBlockB]⟩

/-- Monday 14:00, no pauses; group A has used 30 s (30 s remain of 60),
group B has used 100 s (500 s remain of 600). -/
def envAgg : Env :=
  { nowMs := 0, today := .mon, nowMinutes := 840,
    pauses := fun _ => none,
    used := fun gid _ => if gid = "ga" then 30 else 100 }

/-- Witness for `agg_most_restrictive`: both groups decide allowed and the
scan selects a least-remaining governing group. -/
theorem agg_most_restrictive_witness :
    ([gA, gB2] ≠ ([] : List Group)) ∧
    (∀ g ∈ [gA, gB2], (shouldGroupBlockNow envAgg g).isAllowed = true) ∧
    ∃ g b r, evaluateMatchingGroups envAgg [gA, gB2] = .trackingOutcome g b r ∧
      g ∈ [gA, gB2] ∧ shouldGroupBlockNow envAgg g = .allowedD b r ∧
      ∀ g' ∈ [gA, gB2], ∀ b' r',
        shouldGroupBlockNow envAgg g' = .allowedD b' r' → r ≤ r' := by
  have hA : shouldGroupBlockNow envAgg gA = .allowedD wBlockA 30 := by
    norm_num [shouldGroupBlockNow, decideAfterPause, getActiveBlockForGroup,
      isInsideTimeBlock, timeStrToMinutes, envAgg, gA, wBlockA]
  have hB : shouldGroupBlockNow envAgg gB2 = .allowedD wBlockB 500 := by
    have hid : ("gb" : String) ≠ "ga" := by decide
    norm_num [shouldGroupBlockNow, decideAfterPause, getActiveBlockForGroup,
      isInsideTimeBlock, timeStrToMinutes, envAgg, gB2, wBlockB, hid]
  have hne : ([gA, gB2] ≠ ([] : List Group)) := by simp
  have hall : ∀ g ∈ [gA, gB2], (shouldGroupBlockNow envAgg g).isAllowed = true := by
    intro g hg
    rcases List.mem_cons.mp hg with h | h
    · subst h; rw [hA]; rfl
    · rcases List.mem_cons.mp h with h2 | h2
      · subst h2; rw [hB]; rfl
      · simp at h2
  exact ⟨hne, hall, (agg_most_restrictive envAgg).2 [gA, gB2] hne hall⟩

end Focus

namespace Focus

/-- The mutable tracking session of time-tracker.js
(`{groupId, blockId, usedSeconds, allowedSeconds, tabId, intervalId}`; the
interval handle is host machinery and not part of the data model). -/
structure Session where
  groupId : String
  blockId : String
  usedSeconds : Nat
  allowedSeconds : Nat
  tabId : Nat
deriving DecidableEq, Repr

/-- The tracker's state: the optional current session (`trackingState`),
the tick counter, and the persisted budget ledger for today
(`setTrackingEntry`, keyed by groupId and blockId). -/
structure TrackerModel where
  session : Option Session
  tickCounter : Nat
  ledger : String → String → Nat

/-- `persistTracking`: writes the session's `usedSeconds` to the ledger row
of its (groupId, blockId); a no-op when no session exists. -/
def persistTracking (m : TrackerModel) : TrackerModel :=
  match m.session with
  | none => m
  | some s =>
    { m with ledger := fun gid bid =>
        if gid = s.groupId && bid = s.blockId then s.usedSeconds else m.ledger gid bid }

/-- `stopTracking`: persists the final state, then clears the session and
tick counter; a no-op when no session exists. -/
def stopTracking (m : TrackerModel) : TrackerModel :=
  match m.session with
  | none => m
  | some _ =>
    let m1 := persistTracking m
    { m1 with session := none, tickCounter := 0 }

/-- `tick` from time-tracker.js: increments `usedSeconds` and the tick
counter, persists every 10th tick, and on `remaining ≤ 0` persists the
final usage and stops (the subsequent rule rebuild and tab redirect are
external effects outside this state). -/
def tickStep (m : TrackerModel) : TrackerModel :=
  match m.session with
  | none => m
  | some s =>
    let s1 : Session := { s with usedSeconds := s.usedSeconds + 1 }
    let m1 : TrackerModel := { m with session := some s1, tickCounter := m.tickCounter + 1 }
    let remaining : Int := (s1.allowedSeconds : Int) - (s1.usedSeconds : Int)
    let m2 := if m1.tickCounter % 10 = 0 then persistTracking m1 else m1
    if remaining ≤ 0 then stopTracking (persistTracking m2) else m2

/-- `persistTracking` keeps the session and tick counter and records the
session's `usedSeconds` under its own key. -/
theorem persistTracking_spec (m : TrackerModel) (s : Session) (h : m.session = some s) :
    (persistTracking m).session = some s ∧
    (persistTracking m).tickCounter = m.tickCounter ∧
    (persistTracking m).ledger s.groupId s.blockId = s.usedSeconds := by
  unfold persistTracking
  rw [h]
  exact ⟨rfl, rfl, by simp⟩

/-- `stopTracking` clears the session after persisting the final usage. -/
theorem stopTracking_spec (m : TrackerModel) (s : Session) (h : m.session = some s) :
    (stopTracking m).session = none ∧
    (stopTracking m).ledger s.groupId s.blockId = s.usedSeconds := by
  unfold stopTracking
  rw [h]
  exact ⟨rfl, (persistTracking_spec m s h).2.2⟩

/-- The usage counter visible after a step: the live session's counter
while tracking, else the persisted ledger row. -/
def finalUsed (m : TrackerModel) (gid bid : String) : Nat :=
  (m.session.map Session.usedSeconds).getD (m.ledger gid bid)

/-- C6: a tick on a live session increments `usedSeconds` by exactly 1 (so
`remainingSeconds` drops by exactly 1); when the new remaining value is
≤ 0 the session transitions to Idle with the final usage persisted; and
the final recorded usage never exceeds `allowedSeconds` by more than one
second. -/
theorem tick_spec (m : TrackerModel) (s : Session) (hm : m.session = some s) :
    ((0 : Int) < (s.allowedSeconds : Int) - ((s.usedSeconds + 1 : Nat) : Int) →
      (tickStep m).session = some { s with usedSeconds := s.usedSeconds + 1 }) ∧
    ((s.allowedSeconds : Int) - ((s.usedSeconds + 1 : Nat) : Int) ≤ 0 →
      (tickStep m).session = none ∧
      (tickStep m).ledger s.groupId s.blockId = s.usedSeconds + 1) ∧
    (s.usedSeconds ≤ s.allowedSeconds →
      finalUsed (tickStep m) s.groupId s.blockId ≤ s.allowedSeconds + 1) := by
  have key : ∀ mm : TrackerModel, mm.session = some { s with usedSeconds := s.usedSeconds + 1 } →
      (stopTracking (persistTracking mm)).session = none ∧
      (stopTracking (persistTracking mm)).ledger s.groupId s.blockId = s.usedSeconds + 1 := by
    intro mm hmm
    have hp := persistTracking_spec mm _ hmm
    have hst := stopTracking_spec (persistTracking mm) _ hp.1
    exact ⟨hst.1, hst.2⟩
  have h1 : (0 : Int) < (s.allowedSeconds : Int) - ((s.usedSeconds + 1 : Nat) : Int) →
      (tickStep m).session = some { s with usedSeconds := s.usedSeconds + 1 } := by
    intro hpos
    unfold tickStep
    rw [hm]
    dsimp only
    rw [if_neg (by omega)]
    by_cases h10 : (m.tickCounter + 1) % 10 = 0
    · rw [if_pos h10]
      exact (persistTracking_spec _ _ rfl).1
    · rw [if_neg h10]
  have h2 : (s.allowedSeconds : Int) - ((s.usedSeconds + 1 : Nat) : Int) ≤ 0 →
      (tickStep m).session = none ∧
      (tickStep m).ledger s.groupId s.blockId = s.usedSeconds + 1 := by
    intro hle
    unfold tickStep
    rw [hm]
    dsimp only
    rw [if_pos hle]
    by_cases h10 : (m.tickCounter + 1) % 10 = 0
    · rw [if_pos h10]
      exact key _ (persistTracking_spec _ _ rfl).1
    · rw [if_neg h10]
      exact key _ rfl
  refine ⟨h1, h2, ?_⟩
  intro hub
  by_cases hrem : (s.allowedSeconds : Int) - ((s.usedSeconds + 1 : Nat) : Int) ≤ 0
  · obtain ⟨hs, hl⟩ := h2 hrem
    simp only [finalUsed, hs, Option.map_none', Option.getD_none]
    omega
  · simp only [finalUsed, h1 (by omega), Option.map_some', Option.getD_some]
    omega

/-- Session one second short of a 15-minute budget. -/
def wSession : Session := ⟨"g", "b", 899, 900, 1⟩

/-- Tracker holding `wSession` with an empty ledger. -/
def wTracker : TrackerModel := ⟨some wSession, 0, fun _ _ => 0⟩

/-- Witness for `tick_spec`: ticking `wSession` at 899/900 seconds exhausts
the budget, clears the session and persists 900 used seconds. -/
theorem tick_spec_witness :
    ((wSession.allowedSeconds : Int) - ((wSession.usedSeconds + 1 : Nat) : Int) ≤ 0) ∧
    (tickStep wTracker).session = none ∧
    (tickStep wTracker).ledger "g" "b" = 900 :=
  ⟨by decide,
   ((tick_spec wTracker wSession rfl).2.1 (by decide)).1,
   ((tick_spec wTracker wSession rfl).2.1 (by decide)).2⟩

end Focus

namespace Focus

/-- The `blockConfig` argument of `addTimeBlock` (group-manager.js): every
field may be absent; `allowedMinutes: 0` is falsy in the source, so it is
modelled separately from absence. -/
structure BlockConfig where
  days : Option (List Day)
  startTime : Option HM
  endTime : Option HM
  allDay : Option Bool
  allowedMinutes : Option Nat
deriving DecidableEq, Repr

/-- The block object built by `addTimeBlock`:
`days || []`, `allDay ? '00:00' : (startTime || '09:00')`,
`allDay ? '23:59' : (endTime || '17:00')`, `allDay || false`, and
`allowedMinutes || 15` (JavaScript `||` treats both an absent field and a
requested 0 as falsy, yielding the 15-minute default). -/
def mkTimeBlock (newId : String) (cfg : BlockConfig) : TimeBlock :=
  { id := newId
    days := cfg.days.getD []
    startTime := if cfg.allDay.getD false then ⟨0, 0⟩ else cfg.startTime.getD ⟨9, 0⟩
    endTime := if cfg.allDay.getD false then ⟨23, 59⟩ else cfg.endTime.getD ⟨17, 0⟩
    allDay := cfg.allDay.getD false
    allowedMinutes :=
      match cfg.allowedMinutes with
      | none => 15
      | some n => if n = 0 then 15 else n }

/-- `addTimeBlock` from group-manager.js: locate the group, build the block
and append it to the group's `allowedTimeBlocks` (the source mutates the
found group in place; group ids are unique, so updating by id is the pure
equivalent). Returns `none` when the group does not exist. -/
def addTimeBlock (groups : List Group) (groupId newId : String) (cfg : BlockConfig) :
    Option (List Group × TimeBlock) :=
  match groups.find? (fun g => g.id = groupId) with
  | none => none
  | some _ =>
    let block := mkTimeBlock newId cfg
    some (groups.map (fun g =>
      if g.id = groupId then { g with allowedTimeBlocks := g.allowedTimeBlocks ++ [block] }
      else g), block)

/-- C10: a time block stored through `addTimeBlock` never has a zero
`allowedMinutes`: a requested 0 or an absent value is replaced by the
default of 15. -/
theorem addTimeBlock_default_spec (groups : List Group) (groupId newId : String)
    (cfg : BlockConfig) (groups' : List Group) (blk : TimeBlock)
    (h : addTimeBlock groups groupId newId cfg = some (groups', blk)) :
    blk.allowedMinutes ≠ 0 ∧
    ((cfg.allowedMinutes = some 0 ∨ cfg.allowedMinutes = none) →
      blk.allowedMinutes = 15) := by
  unfold addTimeBlock at h
  cases hf : groups.find? (fun g => g.id = groupId) with
  | none => rw [hf] at h; exact absurd h (by simp)
  | some g0 =>
    rw [hf] at h
    dsimp only at h
    have hblk : blk = mkTimeBlock newId cfg := by
      injection h with h1
      injection h1 with _ h2
      exact h2.symm
    subst hblk
    unfold mkTimeBlock
    constructor
    · cases hcm : cfg.allowedMinutes with
      | none => simp
      | some n =>
        dsimp only
        by_cases hn : n = 0
        · simp [hn]
        · simp [hn]
    · intro hc
      rcases hc with hc | hc <;> simp [hc]

/-- Witness for `addTimeBlock_default_spec`: adding a block with a
requested `allowedMinutes` of 0 to a concrete group stores 15 instead. -/
theorem addTimeBlock_default_spec_witness :
    addTimeBlock [gEmpty] "g-empty" "nb" ⟨some [Day.mon], none, none, none, some 0⟩ =
      some ([⟨"g-empty", "Empty", [], [mkTimeBlock "nb" ⟨some [Day.mon], none, none, none, some 0⟩]⟩],
        mkTimeBlock "nb" ⟨some [Day.mon], none, none, none, some 0⟩) ∧
    (mkTimeBlock "nb" ⟨some [Day.mon], none, none, none, some 0⟩).allowedMinutes ≠ 0 ∧
    (mkTimeBlock "nb" ⟨some [Day.mon], none, none, none, some 0⟩).allowedMinutes = 15 := by
  have happ : addTimeBlock [gEmpty] "g-empty" "nb" ⟨some [Day.mon], none, none, none, some 0⟩ =
      some ([⟨"g-empty", "Empty", [], [mkTimeBlock "nb" ⟨some [Day.mon], none, none, none, some 0⟩]⟩],
        mkTimeBlock "nb" ⟨some [Day.mon], none, none, none, some 0⟩) := by decide
  have h := addTimeBlock_default_spec _ _ _ _ _ _ happ
  exact ⟨happ, h.1, h.2 (Or.inl rfl)⟩

end Focus

namespace Focus

/-- Code points stripped by JavaScript `String.prototype.trim`
(WhiteSpace and LineTerminator productions). -/
def jsWhitespaceCodes : List Nat :=
  [9, 10, 11, 12, 13, 32, 160, 5760, 8192, 8193, 8194, 8195, 8196, 8197,
   8198, 8199, 8200, 8201, 8202, 8232, 8233, 8239, 8287, 12288, 65279]

/-- Whether a code point is JavaScript whitespace. -/
def isJsWhitespace (c : Nat) : Bool := jsWhitespaceCodes.contains c

/-- `toLowerCase` on a single code point (ASCII letters; other code points
are unchanged, which is exact for the domain-name alphabet at issue). -/
def jsToLower (c : Nat) : Nat := if 65 ≤ c ∧ c ≤ 90 then c + 32 else c

/-- `raw.trim()`: drop whitespace from both ends. -/
def jsTrim (l : List Nat) : List Nat :=
  ((l.dropWhile isJsWhitespace).reverse.dropWhile isJsWhitespace).reverse

/-- Code points of `http://`. -/
def httpSlashes : List Nat := [104, 116, 116, 112, 58, 47, 47]

/-- Code points of `https://`. -/
def httpsSlashes : List Nat := [104, 116, 116, 112, 115, 58, 47, 47]

/-- Code points of `www.`. -/
def wwwDot : List Nat := [119, 119, 119, 46]

/-- `pattern.replace(/^https?:\/\//, '')`: remove one leading protocol. -/
def stripProtocol (l : List Nat) : List Nat :=
  if List.isPrefixOf httpsSlashes l then l.drop 8
  else if List.isPrefixOf httpSlashes l then l.drop 7
  else l

/-- `pattern.replace(/^www\./, '')`: remove one leading `www.`. -/
def stripWww (l : List Nat) : List Nat :=
  if List.isPrefixOf wwwDot l then l.drop 4 else l

/-- `pattern.replace(/\/+$/, '')`: remove every trailing slash. -/
def stripTrailingSlashes (l : List Nat) : List Nat :=
  (l.reverse.dropWhile (fun c => c == 47)).reverse

/-- `normalizeSitePattern` from group-manager.js: trim, lower-case, strip one
leading protocol, strip one leading `www.`, strip trailing slashes. -/
def normalizeSitePattern (raw : List Nat) : List Nat :=
  stripTrailingSlashes (stripWww (stripProtocol ((jsTrim raw).map jsToLower)))

/-- Lower-casing a code point twice equals lower-casing it once. -/
theorem jsToLower_idem (c : Nat) : jsToLower (jsToLower c) = jsToLower c := by
  unfold jsToLower
  by_cases h : 65 ≤ c ∧ c ≤ 90
  · simp only [if_pos h]
    rw [if_neg (by omega)]
  · simp only [if_neg h]

/-- Trimming only removes characters. -/
theorem jsTrim_subset (l : List Nat) : jsTrim l ⊆ l := by
  intro c hc
  unfold jsTrim at hc
  rw [List.mem_reverse] at hc
  have hc2 := (List.dropWhile_sublist _).subset hc
  rw [List.mem_reverse] at hc2
  exact (List.dropWhile_sublist _).subset hc2

/-- Protocol stripping only removes characters. -/
theorem stripProtocol_subset (l : List Nat) : stripProtocol l ⊆ l := by
  unfold stripProtocol
  split
  · exact List.drop_subset _ _
  · split
    · exact List.drop_subset _ _
    · exact fun c hc => hc

/-- `www.` stripping only removes characters. -/
theorem stripWww_subset (l : List Nat) : stripWww l ⊆ l := by
  unfold stripWww
  split
  · exact List.drop_subset _ _
  · exact fun c hc => hc

/-- Trailing-slash stripping only removes characters. -/
theorem stripTrailingSlashes_subset (l : List Nat) : stripTrailingSlashes l ⊆ l := by
  intro c hc
  unfold stripTrailingSlashes at hc
  rw [List.mem_reverse] at hc
  have h2 := (List.dropWhile_sublist _).subset hc
  rwa [List.mem_reverse] at h2

/-- A map that fixes every element of a list fixes the list. -/
theorem map_eq_self_of_fixed {f : Nat → Nat} :
    ∀ l : List Nat, (∀ c ∈ l, f c = c) → l.map f = l
  | [], _ => rfl
  | a :: t, h => by
    rw [List.map_cons, h a (by simp),
      map_eq_self_of_fixed t (fun c hc => h c (by simp [hc]))]

/-- Every code point of a normalized pattern is lower-case-fixed. -/
theorem normalize_chars_lowered (x : List Nat) :
    ∀ c ∈ normalizeSitePattern x, jsToLower c = c := by
  intro c hc
  unfold normalizeSitePattern at hc
  have h1 := stripTrailingSlashes_subset _ hc
  have h2 := stripWww_subset _ h1
  have h3 := stripProtocol_subset _ h2
  obtain ⟨d, _, hd⟩ := List.mem_map.mp h3
  rw [← hd]
  exact jsToLower_idem d

/-- `dropWhile` is idempotent. -/
theorem dropWhile_idem (p : Nat → Bool) :
    ∀ l : List Nat, (l.dropWhile p).dropWhile p = l.dropWhile p
  | [] => rfl
  | a :: t => by
    by_cases h : p a = true
    · simp only [List.dropWhile_cons, h, if_true]
      exact dropWhile_idem p t
    · simp only [ List.dropWhile_cons, h, if_false, Bool.false_eq_true]

/-- Trailing-slash stripping is idempotent. -/
theorem stripTrailingSlashes_idem (l : List Nat) :
    stripTrailingSlashes (stripTrailingSlashes l) = stripTrailingSlashes l := by
  unfold stripTrailingSlashes
  rw [List.reverse_reverse, dropWhile_idem]

/-- A list that is trimmed, lower-case-fixed, slash-stripped and carries no
protocol or `www.` head is a fixed point of normalization. -/
theorem normalizeSitePattern_fixed (y : List Nat)
    (hlow : y.map jsToLower = y)
    (ht : jsTrim y = y)
    (hh : List.isPrefixOf httpsSlashes y = false)
    (hhs : List.isPrefixOf httpSlashes y = false)
    (hw : List.isPrefixOf wwwDot y = false)
    (hts : stripTrailingSlashes y = y) :
    normalizeSitePattern y = y := by
  unfold normalizeSitePattern
  rw [ht, hlow]
  unfold stripProtocol stripWww
  simp only [hh, hhs, hw, Bool.false_eq_true, if_false]
  exact hts

/-- Code points of `www.www.a.com`. -/
def wwwTwice : List Nat := [119, 119, 119, 46, 119, 119, 119, 46, 97, 46, 99, 111, 109]

/-- C9 counterexample: normalization is not idempotent — on `www.www.a.com`
one pass yields `www.a.com`, and a second pass strips the exposed `www.`
again, yielding `a.com`. -/
theorem normalize_not_idem_counterexample :
    normalizeSitePattern (normalizeSitePattern wwwTwice) ≠ normalizeSitePattern wwwTwice := by
  decide

/-- C9 (amended): normalization is idempotent on every input whose
normalized form is already trimmed and does not itself begin with
`https://`, `http://` or `www.` (a second pass strips such a head again). -/
theorem normalize_idem_amended (x : List Nat)
    (ht : jsTrim (normalizeSitePattern x) = normalizeSitePattern x)
    (hh : List.isPrefixOf httpsSlashes (normalizeSitePattern x) = false)
    (hhs : List.isPrefixOf httpSlashes (normalizeSitePattern x) = false)
    (hw : List.isPrefixOf wwwDot (normalizeSitePattern x) = false) :
    normalizeSitePattern (normalizeSitePattern x) = normalizeSitePattern x := by
  apply normalizeSitePattern_fixed
  · exact map_eq_self_of_fixed _ (normalize_chars_lowered x)
  · exact ht
  · exact hh
  · exact hhs
  · exact hw
  · unfold normalizeSitePattern
    exact stripTrailingSlashes_idem _

/-- Code points of `a.com`. -/
def aCom : List Nat := [97, 46, 99, 111, 109]

/-- Witness for `normalize_idem_amended` on the input `a.com`. -/
theorem normalize_idem_amended_witness :
    jsTrim (normalizeSitePattern aCom) = normalizeSitePattern aCom ∧
    List.isPrefixOf httpsSlashes (normalizeSitePattern aCom) = false ∧
    List.isPrefixOf httpSlashes (normalizeSitePattern aCom) = false ∧
    List.isPrefixOf wwwDot (normalizeSitePattern aCom) = false ∧
    normalizeSitePattern (normalizeSitePattern aCom) = normalizeSitePattern aCom :=
  ⟨by decide, by decide, by decide, by decide,
   normalize_idem_amended aCom (by decide) (by decide) (by decide) (by decide)⟩

end Focus

namespace Focus

/-- A compiled redirect rule. The redirect URL and regex filter are derived
text carrying `{groupName, groupId, reason, allowedMinutes, originalUrl}`;
for the counting and replacement claims only the identity fields matter. -/
structure CompiledRule where
  id : Nat
  groupId : String
  siteId : String
  reason : BlockReason
deriving DecidableEq, Repr

/-- The persisted rule-compiler state: the rule ids currently installed in
the enforcement sink (`getDynamicRules`), the persisted id counter
(`getNextRuleId`) and the `(groupId::siteId) → id` map (`getRuleIdMap`). -/
structure RuleState where
  installedRuleIds : List Nat
  nextRuleId : Nat
  ruleIdMap : List (String × Nat)
deriving DecidableEq, Repr

/-- The inner per-site loop of `rebuildAllRules`: one rule per site, ids
drawn consecutively from the counter, and one id-map entry per rule. -/
def sitesRules (gid : String) (reason : BlockReason) :
    List Site → Nat → List CompiledRule × List (String × Nat) × Nat
  | [], n => ([], [], n)
  | s :: rest, n =>
    let res := sitesRules gid reason rest (n + 1)
    (⟨n, gid, s.id, reason⟩ :: res.1, (gid ++ "::" ++ s.id, n) :: res.2.1, res.2.2)

/-- The outer per-group loop of `rebuildAllRules`: groups whose decision is
not blocking are skipped (`if (!decision.block) continue`). -/
def buildRules (env : Env) : List Group → Nat → List CompiledRule × List (String × Nat) × Nat
  | [], n => ([], [], n)
  | g :: rest, n =>
    match shouldGroupBlockNow env g with
    | .blockedD reason =>
      let res1 := sitesRules g.id reason g.sites n
      let res2 := buildRules env rest res1.2.2
      (res1.1 ++ res2.1, res1.2.1 ++ res2.2.1, res2.2.2)
    | _ => buildRules env rest n

/-- `rebuildAllRules` from rule-engine.js: build the new rules from the
current groups and counter, read the whole installed set, replace it
atomically (`updateDynamicRules({removeRuleIds, addRules})`), persist the
new map and counter, and report `{addedCount, removedCount}`. -/
def rebuildAllRules (env : Env) (groups : List Group) (st : RuleState) :
    RuleState × Nat × Nat :=
  let res := buildRules env groups st.nextRuleId
  ({ installedRuleIds := res.1.map (fun r => r.id),
     nextRuleId := res.2.2,
     ruleIdMap := res.2.1 },
   res.1.length, st.installedRuleIds.length)

/-- The per-site loop emits exactly one rule per site, whatever the
starting counter. -/
theorem sitesRules_length (gid : String) (reason : BlockReason) :
    ∀ (sites : List Site) (n : Nat), ((sitesRules gid reason sites n).1).length = sites.length
  | [], _ => rfl
  | s :: rest, n => by
    simp only [sitesRules, List.length_cons]
    rw [sitesRules_length gid reason rest (n + 1)]

/-- The number of rules built does not depend on the starting counter. -/
theorem buildRules_length (env : Env) :
    ∀ (gs : List Group) (n n' : Nat),
      ((buildRules env gs n).1).length = ((buildRules env gs n').1).length
  | [], _, _ => rfl
  | g :: rest, n, n' => by
    cases hdec : shouldGroupBlockNow env g with
    | blockedD reason =>
      simp only [buildRules, hdec, List.length_append]
      have h := buildRules_length env rest
        (sitesRules g.id reason g.sites n).2.2
        (sitesRules g.id reason g.sites n').2.2
      rw [sitesRules_length, sitesRules_length, h]
    | pausedD pu =>
      simp only [buildRules, hdec]
      exact buildRules_length env rest n n'
    | allowedD b r =>
      simp only [buildRules, hdec]
      exact buildRules_length env rest n n'

/-- C8: with unchanged groups, pauses, tracking entries and time, a second
`rebuildAllRules` adds the same number of rules as the first and removes
exactly the rules the first added (the installed set is replaced whole). -/
theorem rebuild_idempotent_counts (env : Env) (groups : List Group) (st : RuleState) :
    ((rebuildAllRules env groups ((rebuildAllRules env groups st).1)).2.1 =
      (rebuildAllRules env groups st).2.1) ∧
    ((rebuildAllRules env groups ((rebuildAllRules env groups st).1)).2.2 =
      (rebuildAllRules env groups st).2.1) := by
  unfold rebuildAllRules
  dsimp only
  constructor
  · exact buildRules_length env groups _ _
  · simp

end Focus

namespace Focus

/-- The candidate boundaries of one block that are still in the future
today (`getNextTimeWindowBoundary`, inner loop): its `start` when
`start > nowMinutes`, and `end + 1` (the window closes one minute after the
inclusive end) when `end + 1 > nowMinutes` and `end + 1 ≤ 24*60`. -/
def blockBoundaries (nowMinutes : Nat) (b : TimeBlock) : List Nat :=
  (if timeStrToMinutes b.startTime > nowMinutes
   then [timeStrToMinutes b.startTime] else []) ++
  (if timeStrToMinutes b.endTime + 1 > nowMinutes ∧ timeStrToMinutes b.endTime + 1 ≤ 24 * 60
   then [timeStrToMinutes b.endTime + 1] else [])

/-- One step of the soonest-boundary accumulation: convert the minute
boundary to an epoch timestamp (`setHours(floor(m/60), m%60, 0, 0)` on
today's date) and keep it when it is in the future and sooner than the
best so far. -/
def considerBoundary (dayStartMs nowMs : Nat) (soonest : Option Nat) (bm : Nat) : Option Nat :=
  let boundaryMs := dayStartMs + (bm / 60 * 60 + bm % 60) * 60000
  if boundaryMs > nowMs then
    match soonest with
    | none => some boundaryMs
    | some s => if boundaryMs < s then some boundaryMs else some s
  else soonest

/-- The per-block step of `getNextTimeWindowBoundary`: blocks whose day set
does not include today are skipped. -/
def considerBlock (today : Day) (nowMinutes dayStartMs nowMs : Nat)
    (soonest : Option Nat) (b : TimeBlock) : Option Nat :=
  if b.days.contains today then
    (blockBoundaries nowMinutes b).foldl (considerBoundary dayStartMs nowMs) soonest
  else soonest

/-- `getNextTimeWindowBoundary` from rule-engine.js. The current instant is
`dayStartMs + nowMinutes*60000 + subMs`, where `dayStartMs` is today's
midnight and `subMs < 60000` is the sub-minute part of "now". -/
def getNextTimeWindowBoundary (groups : List Group) (today : Day)
    (nowMinutes dayStartMs subMs : Nat) : Option Nat :=
  let nowMs := dayStartMs + nowMinutes * 60000 + subMs
  groups.foldl (fun soonest g =>
    g.allowedTimeBlocks.foldl (considerBlock today nowMinutes dayStartMs nowMs) soonest) none

/-- All candidate boundary minutes over every group and block with a
matching day. -/
def boundaryCandidates (groups : List Group) (today : Day) (nowMinutes : Nat) : List Nat :=
  groups.flatMap (fun g =>
    g.allowedTimeBlocks.flatMap (fun b =>
      if b.days.contains today then blockBoundaries nowMinutes b else []))

/-- Membership in an if-guarded list. -/
theorem mem_ite_nil {c : Prop} [Decidable c] {l : List Nat} {m : Nat} :
    (m ∈ if c then l else []) ↔ c ∧ m ∈ l := by
  split
  · next h => simp [h]
  · next h => simp [h]

/-- The candidate boundaries of a block are its future start and its future
in-day close (`end + 1`). -/
theorem mem_blockBoundaries (nowMinutes : Nat) (b : TimeBlock) (m : Nat) :
    m ∈ blockBoundaries nowMinutes b ↔
      ((m = timeStrToMinutes b.startTime ∧ nowMinutes < m) ∨
       (m = timeStrToMinutes b.endTime + 1 ∧ nowMinutes < m ∧ m ≤ 24 * 60)) := by
  unfold blockBoundaries
  rw [List.mem_append, mem_ite_nil, mem_ite_nil, List.mem_singleton, List.mem_singleton]
  constructor
  · rintro (⟨hc, hm⟩ | ⟨⟨hc1, hc2⟩, hm⟩)
    · exact Or.inl ⟨hm, by omega⟩
    · exact Or.inr ⟨hm, by omega, by omega⟩
  · rintro (⟨hm, hlt⟩ | ⟨hm, hlt, hle⟩)
    · exact Or.inl ⟨by omega, hm⟩
    · exact Or.inr ⟨⟨by omega, by omega⟩, hm⟩

/-- Candidate membership unfolds to a group, a block with a matching day,
and one of that block's future boundaries. -/
theorem mem_boundaryCandidates (groups : List Group) (today : Day) (nowMinutes : Nat) (m : Nat) :
    m ∈ boundaryCandidates groups today nowMinutes ↔
      ∃ g ∈ groups, ∃ b ∈ g.allowedTimeBlocks,
        b.days.contains today = true ∧ m ∈ blockBoundaries nowMinutes b := by
  unfold boundaryCandidates
  simp only [List.mem_flatMap, mem_ite_nil]

/-- Every candidate boundary is strictly after the current minute. -/
theorem blockBoundaries_gt (nowMinutes : Nat) (b : TimeBlock) :
    ∀ bm ∈ blockBoundaries nowMinutes b, nowMinutes < bm := by
  intro bm hbm
  rw [mem_blockBoundaries] at hbm
  rcases hbm with ⟨_, h⟩ | ⟨_, h, _⟩ <;> exact h

/-- Every candidate over all groups is strictly after the current minute. -/
theorem boundaryCandidates_gt (groups : List Group) (today : Day) (nowMinutes : Nat) :
    ∀ m ∈ boundaryCandidates groups today nowMinutes, nowMinutes < m := by
  intro m hm
  rw [mem_boundaryCandidates] at hm
  obtain ⟨g, _, b, _, _, hbb⟩ := hm
  exact blockBoundaries_gt nowMinutes b m hbb

/-- The pure minimum-accumulation step, to which `considerBoundary`
reduces on future boundaries. -/
def optMin (acc : Option Nat) (v : Nat) : Option Nat :=
  match acc with
  | none => some v
  | some s => if v < s then some v else some s

/-- On a boundary strictly after the current minute, `considerBoundary`
is the minimum step on the boundary's epoch timestamp. -/
theorem considerBoundary_eq (dayStartMs nowMinutes subMs : Nat) (hsub : subMs < 60000)
    (acc : Option Nat) (bm : Nat) (hbm : nowMinutes < bm) :
    considerBoundary dayStartMs (dayStartMs + nowMinutes * 60000 + subMs) acc bm =
      optMin acc (dayStartMs + bm * 60000) := by
  simp only [considerBoundary]
  have hdm : bm / 60 * 60 + bm % 60 = bm := by omega
  rw [hdm,
    if_pos (by omega : dayStartMs + bm * 60000 > dayStartMs + nowMinutes * 60000 + subMs)]
  rfl

/-- Folding `considerBoundary` over future boundaries equals folding
`optMin` over their epoch timestamps. -/
theorem foldl_considerBoundary (dayStartMs nowMinutes subMs : Nat) (hsub : subMs < 60000) :
    ∀ (l : List Nat), (∀ bm ∈ l, nowMinutes < bm) → ∀ acc : Option Nat,
      l.foldl (considerBoundary dayStartMs (dayStartMs + nowMinutes * 60000 + subMs)) acc =
        (l.map (fun m => dayStartMs + m * 60000)).foldl optMin acc
  | [], _, acc => rfl
  | bm :: rest, h, acc => by
    rw [List.foldl_cons, List.map_cons, List.foldl_cons,
      considerBoundary_eq dayStartMs nowMinutes subMs hsub acc bm (h bm (by simp))]
    exact foldl_considerBoundary dayStartMs nowMinutes subMs hsub rest
      (fun x hx => h x (by simp [hx])) _

/-- The per-block fold equals the `optMin` fold over the block candidates. -/
theorem foldl_considerBlock (today : Day) (nowMinutes dayStartMs subMs : Nat)
    (hsub : subMs < 60000) :
    ∀ (bs : List TimeBlock) (acc : Option Nat),
      bs.foldl (considerBlock today nowMinutes dayStartMs
        (dayStartMs + nowMinutes * 60000 + subMs)) acc =
      ((bs.flatMap (fun b =>
          if b.days.contains today then blockBoundaries nowMinutes b else [])).map
        (fun m => dayStartMs + m * 60000)).foldl optMin acc
  | [], _ => rfl
  | b :: rest, acc => by
    rw [List.foldl_cons, List.flatMap_cons, List.map_append, List.foldl_append]
    have hstep : considerBlock today nowMinutes dayStartMs
        (dayStartMs + nowMinutes * 60000 + subMs) acc b =
        ((if b.days.contains today then blockBoundaries nowMinutes b else []).map
          (fun m => dayStartMs + m * 60000)).foldl optMin acc := by
      unfold considerBlock
      by_cases hc : b.days.contains today = true
      · rw [if_pos hc, if_pos hc]
        exact foldl_considerBoundary dayStartMs nowMinutes subMs hsub _
          (blockBoundaries_gt nowMinutes b) acc
      · rw [if_neg hc, if_neg hc]
        rfl
    rw [hstep]
    exact foldl_considerBlock today nowMinutes dayStartMs subMs hsub rest _

/-- The whole nested fold equals the `optMin` fold over all candidates. -/
theorem getNextTimeWindowBoundary_eq (groups : List Group) (today : Day)
    (nowMinutes dayStartMs subMs : Nat) (hsub : subMs < 60000) :
    getNextTimeWindowBoundary groups today nowMinutes dayStartMs subMs =
      ((boundaryCandidates groups today nowMinutes).map
        (fun m => dayStartMs + m * 60000)).foldl optMin none := by
  unfold getNextTimeWindowBoundary boundaryCandidates
  generalize (none : Option Nat) = acc
  induction groups generalizing acc with
  | nil => rfl
  | cons g rest ih =>
    rw [List.foldl_cons, List.flatMap_cons, List.map_append, List.foldl_append,
      foldl_considerBlock today nowMinutes dayStartMs subMs hsub g.allowedTimeBlocks acc]
    exact ih _

end Focus

namespace Focus

/-- Folding `optMin` from a seed yields the least of the seed and the list. -/
theorem foldl_optMin_spec :
    ∀ (l : List Nat) (s : Nat),
      ∃ v, l.foldl optMin (some s) = some v ∧ v ≤ s ∧ (v = s ∨ v ∈ l) ∧ ∀ x ∈ l, v ≤ x
  | [], s => ⟨s, rfl, le_refl s, Or.inl rfl, by simp⟩
  | a :: l, s => by
    rw [List.foldl_cons]
    have hstep : optMin (some s) a = some (if a < s then a else s) := by
      by_cases h : a < s
      · simp [optMin, h]
      · simp [optMin, h]
    rw [hstep]
    obtain ⟨v, hv, hle, horig, hmin⟩ := foldl_optMin_spec l (if a < s then a else s)
    refine ⟨v, hv, ?_, ?_, ?_⟩
    · by_cases h : a < s
      · rw [if_pos h] at hle; omega
      · rwa [if_neg h] at hle
    · rcases horig with he | hm
      · by_cases h : a < s
        · rw [if_pos h] at he
          exact Or.inr (by simp [he])
        · rw [if_neg h] at he
          exact Or.inl he
      · exact Or.inr (by simp [hm])
    · intro x hx
      rcases List.mem_cons.mp hx with hx | hx
      · subst hx
        by_cases h : x < s
        · rw [if_pos h] at hle
          exact hle
        · rw [if_neg h] at hle
          omega
      · exact hmin x hx

/-- C7: `getNextTimeWindowBoundary` returns the earliest future boundary of
the day — candidates are exactly the future starts and future in-day closes
(`end + 1`, the end being inclusive) of blocks whose day set includes
today; the result is `none` exactly when no such boundary exists, and a
returned timestamp is strictly after "now" and is the least candidate. -/
theorem nextBoundary_spec (groups : List Group) (today : Day)
    (nowMinutes dayStartMs subMs : Nat) (hsub : subMs < 60000) :
    (∀ m, m ∈ boundaryCandidates groups today nowMinutes ↔
      ∃ g ∈ groups, ∃ b ∈ g.allowedTimeBlocks,
        b.days.contains today = true ∧
        ((m = timeStrToMinutes b.startTime ∧ nowMinutes < m) ∨
         (m = timeStrToMinutes b.endTime + 1 ∧ nowMinutes < m ∧ m ≤ 24 * 60))) ∧
    (getNextTimeWindowBoundary groups today nowMinutes dayStartMs subMs = none ↔
      boundaryCandidates groups today nowMinutes = []) ∧
    (∀ t, getNextTimeWindowBoundary groups today nowMinutes dayStartMs subMs = some t →
      dayStartMs + nowMinutes * 60000 + subMs < t ∧
      ∃ m ∈ boundaryCandidates groups today nowMinutes,
        t = dayStartMs + m * 60000 ∧
        ∀ m' ∈ boundaryCandidates groups today nowMinutes, m ≤ m') := by
  refine ⟨?_, ?_, ?_⟩
  · intro m
    rw [mem_boundaryCandidates]
    refine exists_congr fun g => and_congr_right fun _ =>
      exists_congr fun b => and_congr_right fun _ => and_congr_right fun _ => ?_
    exact mem_blockBoundaries nowMinutes b m
  · rw [getNextTimeWindowBoundary_eq groups today nowMinutes dayStartMs subMs hsub]
    cases hc : boundaryCandidates groups today nowMinutes with
    | nil => simp
    | cons c cs =>
      simp only [List.map_cons, List.foldl_cons]
      have hstep : optMin none (dayStartMs + c * 60000) =
          some (dayStartMs + c * 60000) := rfl
      rw [hstep]
      obtain ⟨v, hv, _, _, _⟩ := foldl_optMin_spec
        (cs.map (fun m => dayStartMs + m * 60000)) (dayStartMs + c * 60000)
      rw [hv]
      simp
  · intro t ht
    rw [getNextTimeWindowBoundary_eq groups today nowMinutes dayStartMs subMs hsub] at ht
    cases hc : boundaryCandidates groups today nowMinutes with
    | nil =>
      rw [hc] at ht
      exact absurd ht (by simp)
    | cons c cs =>
      rw [hc] at ht
      simp only [List.map_cons, List.foldl_cons] at ht
      have hstep : optMin none (dayStartMs + c * 60000) =
          some (dayStartMs + c * 60000) := rfl
      rw [hstep] at ht
      obtain ⟨v, hv, hle, horig, hmin⟩ := foldl_optMin_spec
        (cs.map (fun m => dayStartMs + m * 60000)) (dayStartMs + c * 60000)
      rw [hv] at ht
      have htv := Option.some.inj ht
      subst htv
      have hex : ∃ m, m ∈ c :: cs ∧ v = dayStartMs + m * 60000 := by
        rcases horig with he | hm
        · exact ⟨c, by simp, he⟩
        · obtain ⟨m, hmem, hfm⟩ := List.mem_map.mp hm
          exact ⟨m, by simp [hmem], hfm.symm⟩
      obtain ⟨m, hmem, hfm⟩ := hex
      have hgt : nowMinutes < m :=
        boundaryCandidates_gt groups today nowMinutes m (by rw [hc]; exact hmem)
      refine ⟨by omega, m, hmem, hfm, ?_⟩
      intro m' hm'
      rcases List.mem_cons.mp hm' with hm' | hm'
      · subst hm'
        omega
      · have hx := hmin (dayStartMs + m' * 60000) (List.mem_map_of_mem _ hm')
        omega

end Focus

namespace Focus

/-- Witness for `nextBoundary_spec`: at Monday 15:00 (plus 500 ms) the only
future boundary of `wGroup`'s 14:00–17:00 block is its close at 17:01,
i.e. minute 1021, timestamp 61260000 from midnight. -/
theorem nextBoundary_spec_witness :
    (500 : Nat) < 60000 ∧
    getNextTimeWindowBoundary [wGroup] Day.mon 900 0 500 = some 61260000 ∧
    (0 + 900 * 60000 + 500 < 61260000 ∧
      ∃ m ∈ boundaryCandidates [wGroup] Day.mon 900,
        61260000 = 0 + m * 60000 ∧
        ∀ m' ∈ boundaryCandidates [wGroup] Day.mon 900, m ≤ m') :=
  ⟨by decide, by decide,
   (nextBoundary_spec [wGroup] Day.mon 900 0 500 (by decide)).2.2 61260000 (by decide)⟩

end Focus
